import Mathlib

/-!
Verification of the git-recent interactive branch selector.

The program (Go, bubbletea TUI) keeps a `model` struct holding the branch
list, a cursor, a scroll offset, and filter state; `Update` maps keystroke
strings to state transitions; `main` runs the event loop and then invokes
`git checkout` on the selected branch.  We embed the full-featured variant
(the one with remote scope and filtering) shallowly: strings stay strings,
the keystroke is the string the TUI reports (`msg.String()` in the source),
and the event loop becomes structural recursion over a list of keystrokes.
-/

namespace GitRecent

/-- Byte length of a string, as Go's `len` on a string counts bytes
(`Char.utf8Size` is the number of UTF-8 bytes of the character). -/
def goStrLen (s : String) : Nat := (s.toList.map Char.utf8Size).sum

/-- Drop the last character of a string, modelling the byte slice
`s[:len(s)-1]` used on the filter text (identical for ASCII input). -/
def strDropLast (s : String) : String := String.mk s.toList.dropLast

/-- `startsWithL p s` holds when the character list `p` is an initial
segment of `s`; the primitive behind substring and suffix search. -/
def startsWithL : List Char → List Char → Bool
  | [], _ => true
  | _ :: _, [] => false
  | p :: ps, c :: cs => p == c && startsWithL ps cs

/-- `containsSubL s pat` models Go's `strings.Contains(s, pat)`:
`pat` occurs contiguously somewhere inside `s`. -/
def containsSubL : List Char → List Char → Bool
  | [], pat => pat.isEmpty
  | c :: rest, pat => startsWithL pat (c :: rest) || containsSubL rest pat

/-- `goHasSuffix s t` models Go's `strings.HasSuffix(s, t)`. -/
def goHasSuffix (s t : String) : Bool :=
  startsWithL t.toList.reverse s.toList.reverse

/-- The characters of `strings.ToLower(s)` (ASCII lowering, which is what
Go's Unicode lowering does on branch-name input). -/
def lowerChars (s : String) : List Char := s.toList.map Char.toLower

/-- ASCII fragment of Go's `unicode.IsSpace`, used by `strings.TrimSpace`. -/
def isGoSpace (c : Char) : Bool :=
  c == ' ' || c == '\t' || c == '\n' || c == '\r' || c == '\x0b' || c == '\x0c'

/-- `strings.TrimSpace`: drop whitespace from both ends. -/
def goTrimSpace (s : String) : String :=
  String.mk (((s.toList.dropWhile isGoSpace).reverse.dropWhile isGoSpace).reverse)

/-- `strings.Split(s, "\n")` on character lists: cut at every newline. -/
def splitLines : List Char → List (List Char)
  | [] => [[]]
  | c :: rest =>
    if c = '\n' then [] :: splitLines rest
    else
      match splitLines rest with
      | [] => [[c]]
      | h :: t => (c :: h) :: t

/-- The lines of a string, as produced by `strings.Split(s, "\n")`. -/
def linesOf (s : String) : List String := (splitLines s.toList).map String.mk

/-- `strings.SplitN(s, "/", 2)` on character lists: split at the first
slash only, yielding one or two pieces. -/
def splitSlash2 : List Char → List (List Char)
  | [] => [[]]
  | c :: rest =>
    if c = '/' then [[], rest]
    else
      match splitSlash2 rest with
      | [] => [[c]]
      | h :: t => (c :: h) :: t

/-- The filtering loop of `getRecentBranches`: keep the entries that are
non-empty and do not end in `/HEAD` (symbolic pointers such as
`origin/HEAD`), in order, exactly as the Go `for` loop appends them. -/
def collectBranches : List String → List String
  | [] => []
  | b :: rest =>
    if (b != "" && !(goHasSuffix b "/HEAD")) then b :: collectBranches rest
    else collectBranches rest

/-- Parsing of the raw `git for-each-ref` output in `getRecentBranches`:
trim, split into lines, then keep the valid entries. -/
def parseBranches (output : String) : List String :=
  collectBranches (linesOf (goTrimSpace output))

/-- The `model` struct of the selector (full-featured variant). -/
structure Model where
  branches : List String
  allBranches : List String
  cursor : Nat
  offset : Nat
  remote : Bool
  selected : Bool
  err : Bool
  filterMode : Bool
  filterText : String
  filteredApplied : Bool
deriving DecidableEq, Repr

/-- `initialModel`: the fetch result is either the branch list or an error
(Go then leaves `branches` nil and records `err`). -/
def initialModel (fetched : Except Unit (List String)) (remote : Bool) : Model :=
  match fetched with
  | .ok bs =>
    { branches := bs, allBranches := bs, cursor := 0, offset := 0,
      remote := remote, selected := false, err := false,
      filterMode := false, filterText := "", filteredApplied := false }
  | .error _ =>
    { branches := [], allBranches := [], cursor := 0, offset := 0,
      remote := remote, selected := false, err := true,
      filterMode := false, filterText := "", filteredApplied := false }

/-- `applyFilter`: recompute `branches` from `allBranches` and the filter
text (case-insensitive substring match, `strings.Contains` on lowered
strings), resetting cursor and offset. -/
def applyFilter (m : Model) : Model :=
  if m.filterText = "" then
    { m with branches := m.allBranches, cursor := 0, offset := 0 }
  else
    { m with
      branches := m.allBranches.filter
        (fun b => containsSubL (lowerChars b) (lowerChars m.filterText)),
      cursor := 0, offset := 0 }

/-- The `up`/`k` branch of `Update`. -/
def moveUp (m : Model) : Model :=
  if 0 < m.cursor then
    let c := m.cursor - 1
    if c < m.offset then { m with cursor := c, offset := m.offset - 1 }
    else { m with cursor := c }
  else m

/-- The `down`/`j` branch of `Update` (page size 10). -/
def moveDown (m : Model) : Model :=
  if m.cursor < m.branches.length - 1 then
    let c := m.cursor + 1
    if m.offset + 10 ≤ c then { m with cursor := c, offset := m.offset + 1 }
    else { m with cursor := c }
  else m

/-- Keystroke handling while `filterMode` is set (never quits). -/
def filterUpdate (m : Model) (k : String) : Model :=
  if k = "esc" then
    { m with filterMode := false, filterText := "", branches := m.allBranches,
             cursor := 0, offset := 0, filteredApplied := false }
  else if k = "enter" then
    { m with filterMode := false, filteredApplied := true }
  else if k = "backspace" then
    if 0 < goStrLen m.filterText then
      applyFilter { m with filterText := strDropLast m.filterText }
    else m
  else if goStrLen k = 1 then
    applyFilter { m with filterText := m.filterText ++ k }
  else m

/-- Keystroke handling in normal (browsing) mode; the `Bool` is the
`tea.Quit` command. -/
def normalUpdate (m : Model) (k : String) : Model × Bool :=
  if k = "ctrl+c" ∨ k = "q" then (m, true)
  else if k = "esc" then
    if m.filteredApplied then
      ({ m with branches := m.allBranches, filterText := "",
                cursor := 0, offset := 0, filteredApplied := false }, false)
    else (m, true)
  else if k = "/" then
    ({ m with filterMode := true, filterText := "" }, false)
  else if k = "up" ∨ k = "k" then (moveUp m, false)
  else if k = "down" ∨ k = "j" then (moveDown m, false)
  else if k = "enter" then ({ m with selected := true }, true)
  else (m, false)

/-- `Update`: dispatch on filter mode; the `Bool` is the quit command. -/
def update (m : Model) (k : String) : Model × Bool :=
  if m.filterMode then (filterUpdate m k, false) else normalUpdate m k

/-- The event loop: process keystrokes until one produces `tea.Quit`;
returns the final model and, when the loop quit, the terminating key. -/
def runTrace : Model → List String → Model × Option String
  | m, [] => (m, none)
  | m, k :: ks =>
    let r := update m k
    if r.2 then (r.1, some k) else runTrace r.1 ks

/-- `main`'s guard before checkout: `finalModel.selected &&
len(finalModel.branches) > 0`. -/
def checkoutInvoked (m : Model) : Bool :=
  m.selected && decide (0 < m.branches.length)

/-- The branch `main` looks up (`finalModel.branches[finalModel.cursor]`)
when it performs a checkout, `none` otherwise. -/
def finalSelection (m : Model) : Option String :=
  if checkoutInvoked m then some (m.branches.getD m.cursor "") else none

/-- The process exit code as `main` computes it, given whether the
checkout collaborator failed (fetch errors exit 1; checkout failures
exit 1; everything else falls through to a zero exit). -/
def exitCode (m : Model) (checkoutFailed : Bool) : Nat :=
  if m.err then 1
  else if checkoutInvoked m && checkoutFailed then 1
  else 0

/-- The git command `checkoutBranch` runs. -/
inductive GitCmd where
  | checkout (branch : String) : GitCmd
  | checkoutTrack (ref : String) : GitCmd
deriving DecidableEq, Repr

/-- `checkoutBranch`: local scope checks the branch out directly; remote
scope splits at the first slash and checks out the local name when the
split yields two parts, otherwise creates a tracking branch. -/
def checkoutBranch (branch : String) (remote : Bool) : GitCmd :=
  if remote then
    match splitSlash2 branch.toList with
    | [_, rest] => GitCmd.checkout (String.mk rest)
    | _ => GitCmd.checkoutTrack branch
  else GitCmd.checkout branch

/-- The window/cursor invariant of the selector state: the cursor sits
inside the 10-row window and indexes into `branches`; when the visible
list is empty both cursor and offset are pinned at 0. -/
def Inv (m : Model) : Prop :=
  m.offset ≤ m.cursor ∧ m.cursor < m.offset + 10 ∧
  (m.branches = [] → m.cursor = 0 ∧ m.offset = 0) ∧
  (m.branches ≠ [] → m.cursor < m.branches.length)

/-! ## String-search characterizations -/

theorem startsWithL_iff (p s : List Char) :
    startsWithL p s = true ↔ ∃ r, s = p ++ r := by
  induction p generalizing s with
  | nil => simp [startsWithL]
  | cons a as ih =>
    cases s with
    | nil =>
      simp [startsWithL]
    | cons b bs =>
      simp only [startsWithL, Bool.and_eq_true, beq_iff_eq, ih, List.cons_append]
      constructor
      · rintro ⟨rfl, r, rfl⟩
        exact ⟨r, rfl⟩
      · rintro ⟨r, hr⟩
        obtain ⟨h1, h2⟩ := List.cons.inj hr
        exact ⟨h1.symm, r, h2⟩

theorem containsSubL_iff (s pat : List Char) :
    containsSubL s pat = true ↔ ∃ l r, s = l ++ pat ++ r := by
  induction s with
  | nil =>
    simp only [containsSubL, List.isEmpty_iff]
    constructor
    · rintro rfl
      exact ⟨[], [], rfl⟩
    · rintro ⟨l, r, hr⟩
      rcases List.append_eq_nil.mp hr.symm with ⟨h1, h2⟩
      exact (List.append_eq_nil.mp h1).2
  | cons c cs ih =>
    simp only [containsSubL, Bool.or_eq_true, startsWithL_iff, ih]
    constructor
    · rintro (⟨r, hr⟩ | ⟨l, r, hr⟩)
      · exact ⟨[], r, by simpa using hr⟩
      · exact ⟨c :: l, r, by simp [hr]⟩
    · rintro ⟨l, r, hr⟩
      cases l with
      | nil =>
        exact Or.inl ⟨r, by simpa using hr⟩
      | cons x xs =>
        obtain ⟨rfl, h2⟩ := List.cons.inj hr
        exact Or.inr ⟨xs, r, h2⟩

theorem goHasSuffix_iff (s t : String) :
    goHasSuffix s t = true ↔ ∃ pre, s.toList = pre ++ t.toList := by
  unfold goHasSuffix
  rw [startsWithL_iff]
  constructor
  · rintro ⟨r, hr⟩
    have h := congrArg List.reverse hr
    simp only [List.reverse_reverse, List.reverse_append] at h
    exact ⟨r.reverse, h⟩
  · rintro ⟨pre, hp⟩
    exact ⟨pre.reverse, by rw [hp, List.reverse_append]⟩

theorem containsSubL_nil_pat (s : List Char) : containsSubL s [] = true := by
  cases s with
  | nil => rfl
  | cons c cs => simp [containsSubL, startsWithL]

/-! ## Branch-list parsing lemmas -/

theorem collectBranches_eq_filter (l : List String) :
    collectBranches l = l.filter (fun b => b != "" && !(goHasSuffix b "/HEAD")) := by
  induction l with
  | nil => rfl
  | cons b rest ih =>
    simp only [collectBranches, List.filter_cons, ih]

theorem mem_collectBranches {b : String} {l : List String}
    (h : b ∈ collectBranches l) : b ≠ "" ∧ goHasSuffix b "/HEAD" = false := by
  rw [collectBranches_eq_filter] at h
  have := List.of_mem_filter h
  simp only [Bool.and_eq_true, bne_iff_ne, ne_eq, Bool.not_eq_true'] at this
  exact this

/-! ## Split lemmas for `checkoutBranch` -/

theorem splitSlash2_no_slash (cs : List Char) (h : '/' ∉ cs) :
    splitSlash2 cs = [cs] := by
  induction cs with
  | nil => rfl
  | cons c rest ih =>
    have hc : ¬ c = '/' := fun hcc => h (hcc ▸ List.mem_cons_self c rest)
    have hrest : '/' ∉ rest := fun hm => h (List.mem_cons_of_mem c hm)
    simp only [splitSlash2, if_neg hc, ih hrest]

theorem splitSlash2_slash (pre post : List Char) (h : '/' ∉ pre) :
    splitSlash2 (pre ++ '/' :: post) = [pre, post] := by
  induction pre with
  | nil => simp [splitSlash2]
  | cons c cs ih =>
    have hc : ¬ c = '/' := fun hcc => h (hcc ▸ List.mem_cons_self c cs)
    have hcs : '/' ∉ cs := fun hm => h (List.mem_cons_of_mem c hm)
    rw [List.cons_append]
    simp only [splitSlash2, if_neg hc, ih hcs]

/-! ## Invariant preservation -/

theorem inv_reset (m : Model) (bs : List String) :
    Inv { m with branches := bs, cursor := 0, offset := 0 } := by
  refine ⟨Nat.le_refl 0, show (0:Nat) < 0 + 10 by omega, fun _ => ⟨rfl, rfl⟩, fun hne => ?_⟩
  exact show 0 < bs.length from List.length_pos.mpr hne

theorem inv_applyFilter (m : Model) : Inv (applyFilter m) := by
  unfold applyFilter
  split_ifs
  · exact inv_reset _ _
  · exact inv_reset _ _

theorem inv_moveUp (m : Model) (h : Inv m) : Inv (moveUp m) := by
  obtain ⟨h1, h2, h3, h4⟩ := h
  simp only [moveUp]
  split_ifs with hc hlt
  · exact ⟨show m.offset - 1 ≤ m.cursor - 1 by omega,
      show m.cursor - 1 < (m.offset - 1) + 10 by omega,
      fun hb => absurd (h3 hb).1 (by omega),
      fun hb => show m.cursor - 1 < m.branches.length by have := h4 hb; omega⟩
  · exact ⟨show m.offset ≤ m.cursor - 1 by omega,
      show m.cursor - 1 < m.offset + 10 by omega,
      fun hb => absurd (h3 hb).1 (by omega),
      fun hb => show m.cursor - 1 < m.branches.length by have := h4 hb; omega⟩
  · exact ⟨h1, h2, h3, h4⟩

theorem inv_moveDown (m : Model) (h : Inv m) : Inv (moveDown m) := by
  obtain ⟨h1, h2, h3, h4⟩ := h
  simp only [moveDown]
  split_ifs with hc hge
  · exact ⟨show m.offset + 1 ≤ m.cursor + 1 by omega,
      show m.cursor + 1 < (m.offset + 1) + 10 by omega,
      fun hb => by rw [hb] at hc; simp at hc,
      fun hb => show m.cursor + 1 < m.branches.length by omega⟩
  · exact ⟨show m.offset ≤ m.cursor + 1 by omega,
      show m.cursor + 1 < m.offset + 10 by omega,
      fun hb => by rw [hb] at hc; simp at hc,
      fun hb => show m.cursor + 1 < m.branches.length by omega⟩
  · exact ⟨h1, h2, h3, h4⟩

theorem inv_same_view (m m' : Model) (h : Inv m)
    (hb : m'.branches = m.branches) (hc : m'.cursor = m.cursor)
    (ho : m'.offset = m.offset) : Inv m' := by
  obtain ⟨h1, h2, h3, h4⟩ := h
  exact ⟨hc ▸ ho ▸ h1, hc ▸ ho ▸ h2, fun he => ⟨hc ▸ (h3 (hb ▸ he)).1, ho ▸ (h3 (hb ▸ he)).2⟩,
    fun hne => hb ▸ hc ▸ h4 (hb ▸ hne)⟩

theorem inv_filterUpdate (m : Model) (k : String) (h : Inv m) :
    Inv (filterUpdate m k) := by
  unfold filterUpdate
  split_ifs
  · exact inv_reset
      { m with filterMode := false, filterText := "", filteredApplied := false } m.allBranches
  · exact inv_same_view _ _ h rfl rfl rfl
  · exact inv_applyFilter _
  · exact h
  · exact inv_applyFilter _
  · exact h

theorem inv_normalUpdate (m : Model) (k : String) (h : Inv m) :
    Inv (normalUpdate m k).1 := by
  unfold normalUpdate
  split_ifs
  · exact h
  · exact inv_reset { m with filterText := "", filteredApplied := false } m.allBranches
  · exact h
  · exact inv_same_view _ _ h rfl rfl rfl
  · exact inv_moveUp _ h
  · exact inv_moveDown _ h
  · exact inv_same_view _ _ h rfl rfl rfl
  · exact h

theorem inv_update (m : Model) (k : String) (h : Inv m) :
    Inv (update m k).1 := by
  unfold update
  split_ifs
  · exact inv_filterUpdate _ _ h
  · exact inv_normalUpdate _ _ h

theorem inv_initialModel (fetched : Except Unit (List String)) (remote : Bool) :
    Inv (initialModel fetched remote) := by
  cases fetched with
  | ok bs =>
    exact ⟨Nat.le_refl 0, show (0:Nat) < 0 + 10 by omega, fun _ => ⟨rfl, rfl⟩,
      fun hne => show 0 < bs.length from List.length_pos.mpr hne⟩
  | error e =>
    exact ⟨Nat.le_refl 0, show (0:Nat) < 0 + 10 by omega, fun _ => ⟨rfl, rfl⟩,
      fun hne => absurd rfl hne⟩

theorem inv_runTrace (m : Model) (ks : List String) (h : Inv m) :
    Inv (runTrace m ks).1 := by
  induction ks generalizing m with
  | nil => exact h
  | cons k ks ih =>
    simp only [runTrace]
    split
    · exact inv_update _ _ h
    · exact ih _ (inv_update _ _ h)

/-! ## Field constancy along the loop -/

theorem applyFilter_fields (m : Model) :
    (applyFilter m).allBranches = m.allBranches ∧
    (applyFilter m).err = m.err ∧
    (applyFilter m).selected = m.selected ∧
    (applyFilter m).filterMode = m.filterMode ∧
    (applyFilter m).filterText = m.filterText := by
  unfold applyFilter
  split_ifs <;> exact ⟨rfl, rfl, rfl, rfl, rfl⟩

theorem moveUp_fields (m : Model) :
    (moveUp m).allBranches = m.allBranches ∧
    (moveUp m).err = m.err ∧
    (moveUp m).selected = m.selected ∧
    (moveUp m).branches = m.branches := by
  simp only [moveUp]
  split_ifs <;> exact ⟨rfl, rfl, rfl, rfl⟩

theorem moveDown_fields (m : Model) :
    (moveDown m).allBranches = m.allBranches ∧
    (moveDown m).err = m.err ∧
    (moveDown m).selected = m.selected ∧
    (moveDown m).branches = m.branches := by
  simp only [moveDown]
  split_ifs <;> exact ⟨rfl, rfl, rfl, rfl⟩

theorem update_allBranches (m : Model) (k : String) :
    (update m k).1.allBranches = m.allBranches := by
  unfold update filterUpdate normalUpdate
  split_ifs <;>
    simp [(applyFilter_fields _).1, (moveUp_fields _).1, (moveDown_fields _).1]

theorem update_err (m : Model) (k : String) :
    (update m k).1.err = m.err := by
  unfold update filterUpdate normalUpdate
  split_ifs <;>
    simp [(applyFilter_fields _).2.1, (moveUp_fields _).2.1, (moveDown_fields _).2.1]

/-- A non-quitting transition never changes the `selected` flag. -/
theorem update_selected_of_not_quit (m : Model) (k : String)
    (h : (update m k).2 = false) : (update m k).1.selected = m.selected := by
  unfold update filterUpdate normalUpdate at *
  split_ifs at * <;>
    simp_all [(applyFilter_fields _).2.2.1, (moveUp_fields _).2.2.1,
      (moveDown_fields _).2.2.1]

/-- A quit produced by any key other than `enter` leaves the model
untouched: those branches all `return m, tea.Quit`. -/
theorem update_quit_non_enter (m : Model) (k : String)
    (hq : (update m k).2 = true) (hk : k ≠ "enter") : (update m k).1 = m := by
  unfold update normalUpdate at *
  split_ifs at * <;> simp_all

theorem runTrace_allBranches (m : Model) (ks : List String) :
    (runTrace m ks).1.allBranches = m.allBranches := by
  induction ks generalizing m with
  | nil => rfl
  | cons k ks ih =>
    simp only [runTrace]
    split
    · exact update_allBranches m k
    · exact (ih _).trans (update_allBranches m k)

theorem runTrace_err (m : Model) (ks : List String) :
    (runTrace m ks).1.err = m.err := by
  induction ks generalizing m with
  | nil => rfl
  | cons k ks ih =>
    simp only [runTrace]
    split
    · exact update_err m k
    · exact (ih _).trans (update_err m k)

/-- A session that quits on a non-`enter` key ends with `selected` still
false (provided it started false). -/
theorem runTrace_cancel_selected (m : Model) (ks : List String) (k : String)
    (hsel : m.selected = false)
    (hq : (runTrace m ks).2 = some k) (hk : k ≠ "enter") :
    (runTrace m ks).1.selected = false := by
  induction ks generalizing m with
  | nil => simp [runTrace] at hq
  | cons k0 ks ih =>
    simp only [runTrace] at hq ⊢
    by_cases hquit : (update m k0).2 = true
    · rw [if_pos hquit] at hq ⊢
      have hkk : k0 = k := by simpa using hq
      subst hkk
      rw [update_quit_non_enter m k0 hquit hk]
      exact hsel
    · rw [if_neg hquit] at hq ⊢
      have hb : (update m k0).2 = false := by
        simpa using hquit
      exact ih _ ((update_selected_of_not_quit m k0 hb).trans hsel) hq

/-! ## Claim theorems -/

/-- C3: in every state reachable from the initial state by any sequence of
keystrokes, whenever the visible list is non-empty the window invariant
`windowStart ≤ cursorIndex < windowStart + pageSize` (pageSize = 10) holds,
together with `windowStart ≥ 0`. -/
theorem reachable_window_invariant (fetched : Except Unit (List String))
    (remote : Bool) (ks : List String)
    (_hne : (runTrace (initialModel fetched remote) ks).1.branches ≠ []) :
    0 ≤ (runTrace (initialModel fetched remote) ks).1.offset ∧
    (runTrace (initialModel fetched remote) ks).1.offset
      ≤ (runTrace (initialModel fetched remote) ks).1.cursor ∧
    (runTrace (initialModel fetched remote) ks).1.cursor
      < (runTrace (initialModel fetched remote) ks).1.offset + 10 := by
  have h := inv_runTrace _ ks (inv_initialModel fetched remote)
  exact ⟨Nat.zero_le _, h.1, h.2.1⟩

theorem reachable_window_invariant_witness :
    ((runTrace (initialModel (Except.ok ["a", "b", "c"]) false)
        ["down", "down"]).1.branches ≠ []) ∧
    (0 ≤ (runTrace (initialModel (Except.ok ["a", "b", "c"]) false)
        ["down", "down"]).1.offset ∧
     (runTrace (initialModel (Except.ok ["a", "b", "c"]) false)
        ["down", "down"]).1.offset
       ≤ (runTrace (initialModel (Except.ok ["a", "b", "c"]) false)
        ["down", "down"]).1.cursor ∧
     (runTrace (initialModel (Except.ok ["a", "b", "c"]) false)
        ["down", "down"]).1.cursor
       < (runTrace (initialModel (Except.ok ["a", "b", "c"]) false)
        ["down", "down"]).1.offset + 10) :=
  ⟨by decide,
   reachable_window_invariant (Except.ok ["a", "b", "c"]) false
     ["down", "down"] (by decide)⟩

/-- C10: in every reachable terminal state, if the final visible list is
non-empty then the cursor is a valid index into it, so the lookup
`branches[cursor]` done by `main` after the loop exits is in bounds, and
the selection `main` would check out is an element of the visible list. -/
theorem reachable_cursor_in_bounds (fetched : Except Unit (List String))
    (remote : Bool) (ks : List String)
    (hne : (runTrace (initialModel fetched remote) ks).1.branches ≠ []) :
    (runTrace (initialModel fetched remote) ks).1.cursor
      < (runTrace (initialModel fetched remote) ks).1.branches.length ∧
    (finalSelection (runTrace (initialModel fetched remote) ks).1 = none ∨
     ∃ b ∈ (runTrace (initialModel fetched remote) ks).1.branches,
       finalSelection (runTrace (initialModel fetched remote) ks).1 = some b) := by
  have h := inv_runTrace _ ks (inv_initialModel fetched remote)
  have hlt := h.2.2.2 hne
  refine ⟨hlt, ?_⟩
  unfold finalSelection
  split_ifs
  · refine Or.inr ⟨_, ?_, rfl⟩
    rw [List.getD_eq_getElem _ _ hlt]
    exact List.getElem_mem hlt
  · exact Or.inl rfl

theorem reachable_cursor_in_bounds_witness :
    ((runTrace (initialModel (Except.ok ["x", "y"]) false)
        ["down", "enter"]).1.branches ≠ []) ∧
    ((runTrace (initialModel (Except.ok ["x", "y"]) false)
        ["down", "enter"]).1.cursor
      < (runTrace (initialModel (Except.ok ["x", "y"]) false)
        ["down", "enter"]).1.branches.length ∧
    (finalSelection (runTrace (initialModel (Except.ok ["x", "y"]) false)
        ["down", "enter"]).1 = none ∨
     ∃ b ∈ (runTrace (initialModel (Except.ok ["x", "y"]) false)
        ["down", "enter"]).1.branches,
       finalSelection (runTrace (initialModel (Except.ok ["x", "y"]) false)
        ["down", "enter"]).1 = some b)) :=
  ⟨by decide,
   reachable_cursor_in_bounds (Except.ok ["x", "y"]) false
     ["down", "enter"] (by decide)⟩

/-- C1 as stated is false on the code: when branch enumeration failed, the
TUI still runs, and a session the user then cancels with `q` exits with
code 1 (`main` checks `finalModel.err` after the loop), not 0 — although
no checkout is attempted. -/
theorem cancel_session_exit_counterexample :
    (runTrace (initialModel (Except.error ()) false) ["q"]).2 = some "q" ∧
    checkoutInvoked (runTrace (initialModel (Except.error ()) false) ["q"]).1
      = false ∧
    exitCode (runTrace (initialModel (Except.error ()) false) ["q"]).1 false
      = 1 := by
  decide

/-- C1 (amended): for every session whose branch enumeration succeeded and
that terminates by a user-initiated cancellation (the quit keys `q` or
`ctrl+c`, or `esc` — which only quits when no filter is committed), the
process exits with code 0 and no checkout is invoked; when enumeration
failed a cancelled session still invokes no checkout but exits 1. -/
theorem cancel_session_clean (bs : List String) (remote : Bool)
    (ks : List String) (k : String) (checkoutFailed : Bool)
    (hq : (runTrace (initialModel (Except.ok bs) remote) ks).2 = some k)
    (hk : k = "q" ∨ k = "ctrl+c" ∨ k = "esc") :
    checkoutInvoked (runTrace (initialModel (Except.ok bs) remote) ks).1
      = false ∧
    exitCode (runTrace (initialModel (Except.ok bs) remote) ks).1
      checkoutFailed = 0 := by
  have hkne : k ≠ "enter" := by
    rcases hk with rfl | rfl | rfl <;> decide
  have hsel : (runTrace (initialModel (Except.ok bs) remote) ks).1.selected
      = false :=
    runTrace_cancel_selected _ ks k rfl hq hkne
  have herr : (runTrace (initialModel (Except.ok bs) remote) ks).1.err
      = false := runTrace_err _ ks
  constructor
  · unfold checkoutInvoked
    rw [hsel]
    rfl
  · unfold exitCode checkoutInvoked
    rw [hsel, herr]
    rfl

theorem cancel_session_clean_witness :
    ((runTrace (initialModel (Except.ok ["main", "dev"]) false)
        ["down", "esc"]).2 = some "esc") ∧
    (checkoutInvoked (runTrace (initialModel (Except.ok ["main", "dev"]) false)
        ["down", "esc"]).1 = false ∧
     exitCode (runTrace (initialModel (Except.ok ["main", "dev"]) false)
        ["down", "esc"]).1 true = 0) :=
  ⟨by decide,
   cancel_session_clean ["main", "dev"] false ["down", "esc"] "esc" true
     (by decide) (Or.inr (Or.inr rfl))⟩

/-- C2 as stated is false on the code: in Browsing with an empty visible
list, the confirm key is not a no-op — `enter` unconditionally sets
`selected` and returns `tea.Quit`, so the event loop does terminate. -/
theorem confirm_empty_terminates_counterexample :
    (initialModel (Except.ok []) false).branches = [] ∧
    (update (initialModel (Except.ok []) false) "enter").2 = true ∧
    (update (initialModel (Except.ok []) false) "enter").1.selected = true := by
  decide

/-- C2 (amended): in Browsing the confirm key always terminates the event
loop with `selected` set; the session's outcome is
`Selected(visible[cursorIndex])` if and only if the visible list is
non-empty — when it is empty the termination carries no selection and no
checkout is invoked (main's `len(finalModel.branches) > 0` guard). -/
theorem confirm_selects_iff_nonempty (m : Model) (hf : m.filterMode = false) :
    (update m "enter").2 = true ∧
    (update m "enter").1.selected = true ∧
    (m.branches ≠ [] →
      finalSelection (update m "enter").1 = some (m.branches.getD m.cursor "")) ∧
    (m.branches = [] →
      finalSelection (update m "enter").1 = none ∧
      checkoutInvoked (update m "enter").1 = false) := by
  have hup : update m "enter" = ({ m with selected := true }, true) := by
    unfold update normalUpdate
    rw [if_neg (by simp [hf])]
    simp
  rw [hup]
  refine ⟨rfl, rfl, fun hne => ?_, fun hemp => ?_⟩
  · unfold finalSelection checkoutInvoked
    rw [if_pos (by simp [List.length_pos.mpr hne])]
  · unfold finalSelection checkoutInvoked
    simp [hemp]

theorem confirm_selects_iff_nonempty_witness :
    ((initialModel (Except.ok ["main", "dev"]) false).filterMode = false) ∧
    ((update (initialModel (Except.ok ["main", "dev"]) false) "enter").2 = true ∧
     (update (initialModel (Except.ok ["main", "dev"]) false) "enter").1.selected
       = true ∧
     ((initialModel (Except.ok ["main", "dev"]) false).branches ≠ [] →
       finalSelection
         (update (initialModel (Except.ok ["main", "dev"]) false) "enter").1
         = some ((initialModel (Except.ok ["main", "dev"]) false).branches.getD
             (initialModel (Except.ok ["main", "dev"]) false).cursor ""))) :=
  ⟨rfl,
   (confirm_selects_iff_nonempty (initialModel (Except.ok ["main", "dev"]) false)
      rfl).1,
   (confirm_selects_iff_nonempty (initialModel (Except.ok ["main", "dev"]) false)
      rfl).2.1,
   (confirm_selects_iff_nonempty (initialModel (Except.ok ["main", "dev"]) false)
      rfl).2.2.1⟩

theorem applyFilter_filterMode (m : Model) :
    (applyFilter m).filterMode = m.filterMode := (applyFilter_fields m).2.2.2.1

theorem applyFilter_filterText (m : Model) :
    (applyFilter m).filterText = m.filterText := (applyFilter_fields m).2.2.2.2

/-- C4: `applyFilter` recomputes the visible list as exactly the
order-preserving subsequence of the full BranchList whose entries contain
the filter text as a case-insensitive substring (the boolean test decides
genuine substring occurrence in the lowered strings); an empty filter text
yields the full BranchList, and cursor and window are always reset to 0.
The concrete conjunct is the spec's `"FEAT"` matches `feature/x` scenario. -/
theorem applyFilter_spec (m : Model) :
    (applyFilter m).cursor = 0 ∧
    (applyFilter m).offset = 0 ∧
    (applyFilter m).branches = m.allBranches.filter
      (fun b => containsSubL (lowerChars b) (lowerChars m.filterText)) ∧
    List.Sublist (applyFilter m).branches m.allBranches ∧
    (∀ b : String,
      containsSubL (lowerChars b) (lowerChars m.filterText) = true ↔
        ∃ l r, lowerChars b = l ++ lowerChars m.filterText ++ r) ∧
    (m.filterText = "" → (applyFilter m).branches = m.allBranches) ∧
    (applyFilter { initialModel (Except.ok ["main", "develop", "feature/login",
        "feature/signup"]) false with filterText := "FEAT" }).branches
      = ["feature/login", "feature/signup"] := by
  have hchar := fun b : String =>
    containsSubL_iff (lowerChars b) (lowerChars m.filterText)
  have hmain : (applyFilter m).cursor = 0 ∧ (applyFilter m).offset = 0 ∧
      (applyFilter m).branches = m.allBranches.filter
        (fun b => containsSubL (lowerChars b) (lowerChars m.filterText)) ∧
      (m.filterText = "" → (applyFilter m).branches = m.allBranches) := by
    unfold applyFilter
    split_ifs with hft
    · refine ⟨rfl, rfl, ?_, fun _ => rfl⟩
      rw [hft]
      exact (List.filter_eq_self.mpr fun b _ => containsSubL_nil_pat (lowerChars b)).symm
    · exact ⟨rfl, rfl, rfl, fun h => absurd h hft⟩
  refine ⟨hmain.1, hmain.2.1, hmain.2.2.1, ?_, hchar, hmain.2.2.2, by decide⟩
  rw [hmain.2.2.1]
  exact List.filter_sublist _

theorem applyFilter_spec_witness :
    ((initialModel (Except.ok ["feature/x", "main"]) false).filterText = "") ∧
    (applyFilter (initialModel (Except.ok ["feature/x", "main"]) false)).branches
      = (initialModel (Except.ok ["feature/x", "main"]) false).allBranches :=
  ⟨rfl, (applyFilter_spec (initialModel (Except.ok ["feature/x", "main"])
      false)).2.2.2.2.2.1 rfl⟩

/-- C5: under Remote scope, selecting a branch of the form
`<remote>/<localName>` makes `checkoutBranch` check out `<localName>`
(everything past the first slash); a remote name without a slash gets a
new tracking branch for the full ref; in particular `origin/feature/x`
checks out local name `feature/x`.  (Local scope checks the name out
directly.) -/
theorem checkout_remote_spec :
    (∀ pre post : List Char, '/' ∉ pre →
      checkoutBranch (String.mk (pre ++ '/' :: post)) true
        = GitCmd.checkout (String.mk post)) ∧
    (∀ b : String, '/' ∉ b.toList →
      checkoutBranch b true = GitCmd.checkoutTrack b) ∧
    checkoutBranch "origin/feature/x" true = GitCmd.checkout "feature/x" ∧
    (∀ b : String, checkoutBranch b false = GitCmd.checkout b) := by
  refine ⟨fun pre post h => ?_, fun b h => ?_, by decide, fun b => rfl⟩
  · unfold checkoutBranch
    rw [if_pos rfl,
      show (String.mk (pre ++ '/' :: post)).toList = pre ++ '/' :: post from rfl,
      splitSlash2_slash pre post h]
  · unfold checkoutBranch
    rw [if_pos rfl, splitSlash2_no_slash b.toList h]

theorem checkout_remote_spec_witness :
    ('/' ∉ ("origin".toList : List Char)) ∧
    checkoutBranch (String.mk ("origin".toList ++ '/' :: "feature/x".toList)) true
      = GitCmd.checkout (String.mk "feature/x".toList) ∧
    ('/' ∉ ("standalone".toList : List Char)) ∧
    checkoutBranch "standalone" true = GitCmd.checkoutTrack "standalone" :=
  ⟨by decide,
   checkout_remote_spec.1 "origin".toList "feature/x".toList (by decide),
   by decide,
   checkout_remote_spec.2.1 "standalone" (by decide)⟩

/-- C6: from any reachable Filtering state, committing the filter with the
confirm key and then pressing the cancel key once (in Browsing, which the
commit returns to) restores the visible list to exactly the original
BranchList in original order, resets cursor and window to 0, and clears
the committed-filter flag. -/
theorem commit_then_cancel_restores (bs : List String) (remote : Bool)
    (ks : List String)
    (hF : (runTrace (initialModel (Except.ok bs) remote) ks).1.filterMode
      = true) :
    (update (runTrace (initialModel (Except.ok bs) remote) ks).1
       "enter").1.filterMode = false ∧
    (update (update (runTrace (initialModel (Except.ok bs) remote) ks).1
       "enter").1 "esc").1.branches = bs ∧
    (update (update (runTrace (initialModel (Except.ok bs) remote) ks).1
       "enter").1 "esc").1.cursor = 0 ∧
    (update (update (runTrace (initialModel (Except.ok bs) remote) ks).1
       "enter").1 "esc").1.offset = 0 ∧
    (update (update (runTrace (initialModel (Except.ok bs) remote) ks).1
       "enter").1 "esc").1.filteredApplied = false := by
  set m := (runTrace (initialModel (Except.ok bs) remote) ks).1 with hm
  have hA : m.allBranches = bs := by
    rw [hm, runTrace_allBranches]
    rfl
  have h1 : update m "enter"
      = ({ m with filterMode := false, filteredApplied := true }, false) := by
    unfold update filterUpdate
    rw [if_pos hF]
    simp
  have h2 : update ({ m with filterMode := false, filteredApplied := true })
        "esc"
      = ({ m with filterMode := false, branches := m.allBranches,
                  filterText := "", cursor := 0, offset := 0,
                  filteredApplied := false }, false) := by
    unfold update normalUpdate
    simp
  rw [h1, h2]
  exact ⟨rfl, hA, rfl, rfl, rfl⟩

theorem commit_then_cancel_restores_witness :
    ((runTrace (initialModel (Except.ok ["main", "dev"]) false)
       ["/"]).1.filterMode = true) ∧
    ((update (update (runTrace (initialModel (Except.ok ["main", "dev"]) false)
       ["/"]).1 "enter").1 "esc").1.branches = ["main", "dev"] ∧
     (update (update (runTrace (initialModel (Except.ok ["main", "dev"]) false)
       ["/"]).1 "enter").1 "esc").1.filteredApplied = false) :=
  ⟨by decide,
   (commit_then_cancel_restores ["main", "dev"] false ["/"] (by decide)).2.1,
   (commit_then_cancel_restores ["main", "dev"] false ["/"] (by decide)).2.2.2.2⟩

/-- C7: in Browsing, for every state satisfying the window invariant with a
non-empty visible list, move-down (`down`/`j`) sets the cursor to
`min(len(visible)-1, cursor+1)` and move-up (`up`/`k`) sets it to
`max(0, cursor-1)`; the window follows the cursor as specified (set to the
cursor when it moves above the window, advanced by one when the cursor
reaches `windowStart + pageSize`), and the cursor never leaves
`[0, len(visible)-1]`. -/
theorem move_bounds (m : Model) (hf : m.filterMode = false) (hInv : Inv m)
    (hne : m.branches ≠ []) :
    (update m "down").1 = moveDown m ∧
    (update m "j").1 = moveDown m ∧
    (update m "up").1 = moveUp m ∧
    (update m "k").1 = moveUp m ∧
    (moveDown m).cursor = min (m.branches.length - 1) (m.cursor + 1) ∧
    (moveUp m).cursor = max 0 (m.cursor - 1) ∧
    (0 < m.cursor ∧ m.cursor - 1 < m.offset →
      (moveUp m).offset = m.cursor - 1) ∧
    (m.cursor + 1 < m.branches.length ∧ m.offset + 10 ≤ m.cursor + 1 →
      (moveDown m).offset = m.offset + 1) ∧
    (moveDown m).cursor < m.branches.length ∧
    (moveUp m).cursor < m.branches.length := by
  obtain ⟨h1, h2, h3, h4⟩ := hInv
  have hlen : m.cursor < m.branches.length := h4 hne
  have hdown : (update m "down").1 = moveDown m := by
    unfold update normalUpdate
    simp [hf]
  have hj : (update m "j").1 = moveDown m := by
    unfold update normalUpdate
    simp [hf]
  have hup : (update m "up").1 = moveUp m := by
    unfold update normalUpdate
    simp [hf]
  have hk : (update m "k").1 = moveUp m := by
    unfold update normalUpdate
    simp [hf]
  refine ⟨hdown, hj, hup, hk, ?_, ?_, ?_, ?_, ?_, ?_⟩
  · simp only [moveDown]
    split_ifs with hc hoff
    · exact show m.cursor + 1 = min (m.branches.length - 1) (m.cursor + 1)
        by omega
    · exact show m.cursor + 1 = min (m.branches.length - 1) (m.cursor + 1)
        by omega
    · exact show m.cursor = min (m.branches.length - 1) (m.cursor + 1) by omega
  · simp only [moveUp]
    split_ifs with hc hoff
    · exact show m.cursor - 1 = max 0 (m.cursor - 1) by omega
    · exact show m.cursor - 1 = max 0 (m.cursor - 1) by omega
    · exact show m.cursor = max 0 (m.cursor - 1) by omega
  · rintro ⟨hc0, hlt⟩
    simp only [moveUp]
    rw [if_pos hc0, if_pos hlt]
    exact show m.offset - 1 = m.cursor - 1 by omega
  · rintro ⟨hlt, hge⟩
    simp only [moveDown]
    rw [if_pos (show m.cursor < m.branches.length - 1 by omega), if_pos hge]
  · simp only [moveDown]
    split_ifs with hc hoff
    · exact show m.cursor + 1 < m.branches.length by omega
    · exact show m.cursor + 1 < m.branches.length by omega
    · exact hlen
  · simp only [moveUp]
    split_ifs with hc hoff
    · exact show m.cursor - 1 < m.branches.length by omega
    · exact show m.cursor - 1 < m.branches.length by omega
    · exact hlen

theorem move_bounds_witness :
    ((initialModel (Except.ok ["a", "b"]) false).filterMode = false) ∧
    ((initialModel (Except.ok ["a", "b"]) false).branches ≠ []) ∧
    (moveDown (initialModel (Except.ok ["a", "b"]) false)).cursor
      = min ((initialModel (Except.ok ["a", "b"]) false).branches.length - 1)
          ((initialModel (Except.ok ["a", "b"]) false).cursor + 1) ∧
    (moveDown (initialModel (Except.ok ["a", "b"]) false)).cursor
      < (initialModel (Except.ok ["a", "b"]) false).branches.length :=
  ⟨rfl, by decide,
   (move_bounds (initialModel (Except.ok ["a", "b"]) false) rfl
     (inv_initialModel (Except.ok ["a", "b"]) false) (by decide)).2.2.2.2.1,
   (move_bounds (initialModel (Except.ok ["a", "b"]) false) rfl
     (inv_initialModel (Except.ok ["a", "b"]) false) (by decide)).2.2.2.2.2.2.2.2.1⟩

/-- C8: for every raw output of the branch enumeration command, the parsed
BranchList is exactly the subsequence of non-empty lines of the trimmed
output, in order, with every entry ending in `/HEAD` (a symbolic pointer
such as `origin/HEAD`) excluded. -/
theorem parse_branches_spec (output : String) :
    parseBranches output = (linesOf (goTrimSpace output)).filter
      (fun b => b != "" && !(goHasSuffix b "/HEAD")) ∧
    List.Sublist (parseBranches output) (linesOf (goTrimSpace output)) ∧
    (∀ b ∈ parseBranches output,
      b ≠ "" ∧ ¬ ∃ pre, b.toList = pre ++ "/HEAD".toList) ∧
    (∀ b ∈ linesOf (goTrimSpace output),
      b ≠ "" → (¬ ∃ pre, b.toList = pre ++ "/HEAD".toList) →
        b ∈ parseBranches output) := by
  have hfil : parseBranches output = (linesOf (goTrimSpace output)).filter
      (fun b => b != "" && !(goHasSuffix b "/HEAD")) :=
    collectBranches_eq_filter _
  refine ⟨hfil, ?_, ?_, ?_⟩
  · rw [hfil]
    exact List.filter_sublist _
  · intro b hb
    have h := mem_collectBranches hb
    refine ⟨h.1, ?_⟩
    rintro ⟨pre, hpre⟩
    have hs : goHasSuffix b "/HEAD" = true :=
      (goHasSuffix_iff b "/HEAD").mpr ⟨pre, hpre⟩
    rw [h.2] at hs
    exact Bool.false_ne_true hs
  · intro b hb hne hnsuf
    rw [hfil, List.mem_filter]
    refine ⟨hb, ?_⟩
    simp only [Bool.and_eq_true, bne_iff_ne, ne_eq, Bool.not_eq_true']
    refine ⟨hne, ?_⟩
    cases hsuf : goHasSuffix b "/HEAD"
    · rfl
    · exact absurd ((goHasSuffix_iff b "/HEAD").mp hsuf) hnsuf

theorem parse_branches_spec_witness :
    ("main" ∈ parseBranches "  main\norigin/HEAD\n\ndev\n") ∧
    ("main" ≠ "" ∧ ¬ ∃ pre, "main".toList = pre ++ "/HEAD".toList) ∧
    parseBranches "  main\norigin/HEAD\n\ndev\n" = ["main", "dev"] :=
  ⟨by decide,
   (parse_branches_spec "  main\norigin/HEAD\n\ndev\n").2.2.1 "main" (by decide),
   by decide⟩

/-- C9: while the selector is in Filtering mode no keystroke terminates the
session (quit flag always false); the quit key `q` is a printable
single-byte key and is appended to the filter text (staying in Filtering);
`ctrl+c` is ignored entirely; and only the cancel (`esc`) and confirm
(`enter`) keys leave Filtering mode, returning to Browsing. -/
theorem filtering_never_terminates (m : Model) (hf : m.filterMode = true)
    (k : String) :
    (update m k).2 = false ∧
    (update m "q").1.filterText = m.filterText ++ "q" ∧
    (update m "q").1.filterMode = true ∧
    (update m "ctrl+c").1 = m ∧
    ((update m k).1.filterMode = false → k = "esc" ∨ k = "enter") ∧
    (update m "esc").1.filterMode = false ∧
    (update m "enter").1.filterMode = false := by
  have hq : ∀ k' : String, update m k' = (filterUpdate m k', false) := by
    intro k'
    unfold update
    rw [if_pos hf]
  have hqk : filterUpdate m "q"
      = applyFilter { m with filterText := m.filterText ++ "q" } := by
    unfold filterUpdate
    rw [if_neg (by decide), if_neg (by decide), if_neg (by decide),
      if_pos (show goStrLen "q" = 1 by decide)]
  have hcc : filterUpdate m "ctrl+c" = m := by
    unfold filterUpdate
    rw [if_neg (by decide), if_neg (by decide), if_neg (by decide),
      if_neg (show ¬ goStrLen "ctrl+c" = 1 by decide)]
  refine ⟨by rw [hq], ?_, ?_, by rw [hq, hcc], ?_, ?_, ?_⟩
  · rw [hq, hqk]
    rw [applyFilter_filterText]
  · rw [hq, hqk, applyFilter_filterMode]
    exact hf
  · rw [hq]
    intro hmode
    unfold filterUpdate at hmode
    split_ifs at hmode with hesc hent hbk hlen
    · exact Or.inl hesc
    · exact Or.inr hent
    · rw [applyFilter_filterMode] at hmode
      rw [show ({ m with filterText := strDropLast m.filterText } :
          Model).filterMode = m.filterMode from rfl, hf] at hmode
      exact absurd hmode (by decide)
    · rw [hf] at hmode
      exact absurd hmode (by decide)
    · rw [applyFilter_filterMode] at hmode
      rw [show ({ m with filterText := m.filterText ++ k } :
          Model).filterMode = m.filterMode from rfl, hf] at hmode
      exact absurd hmode (by decide)
    · rw [hf] at hmode
      exact absurd hmode (by decide)
  · rw [hq]
    unfold filterUpdate
    simp
  · rw [hq]
    unfold filterUpdate
    simp

theorem filtering_never_terminates_witness :
    ((update (initialModel (Except.ok ["main"]) false) "/").1.filterMode
      = true) ∧
    ((update (update (initialModel (Except.ok ["main"]) false) "/").1 "q").2
      = false) ∧
    ((update (update (initialModel (Except.ok ["main"]) false) "/").1
       "q").1.filterText = "q") ∧
    ((update (update (initialModel (Except.ok ["main"]) false) "/").1
       "ctrl+c").1 = (update (initialModel (Except.ok ["main"]) false) "/").1) :=
  ⟨by decide,
   (filtering_never_terminates
     (update (initialModel (Except.ok ["main"]) false) "/").1 (by decide) "q").1,
   (filtering_never_terminates
     (update (initialModel (Except.ok ["main"]) false) "/").1 (by decide)
       "q").2.1,
   (filtering_never_terminates
     (update (initialModel (Except.ok ["main"]) false) "/").1 (by decide)
       "q").2.2.2.1⟩

end GitRecent
